import Mathlib

/-! Ring signatures: key generation and the documented Schnorr ring algorithms.

A shallow embedding of `ring.go`.

* `Generate` (ring.go, lines 15-29) is embedded together with the three library
  routines it calls: `crypto/elliptic.GenerateKey`, `crypto/elliptic.Marshal` and
  `io.ReadFull`, each written after the Go standard library.  The arithmetic of the
  curve itself (the map `k ↦ k·G` in affine coordinates) is a black box, `P384Arith`.
* The signing and verifying algorithms, which `ring.go` carries as comments
  (lines 31-50), are embedded over an arbitrary commutative group.

Bytes are natural numbers below 256; byte strings are lists of them.
-/

namespace Ring

/-! ## Go values -/

/-- Go error values that `io.ReadFull` can hand back: the two sentinel errors of
package `io` and any other error, carried by its text. -/
inductive GoError where
  | EOF
  | ErrUnexpectedEOF
  | other (msg : String)
  deriving DecidableEq, Repr

/-- The text of an error, `err.Error()`. -/
def GoError.Error : GoError → String
  | .EOF => "EOF"
  | .ErrUnexpectedEOF => "unexpected EOF"
  | .other msg => msg

/-- The result of a call that either returns a value or panics with a message. -/
inductive Outcome (α : Type) where
  | ok (v : α)
  | panic (msg : String)
  deriving DecidableEq, Repr

deriving instance DecidableEq for Except

/-- An `io.Reader`: a state and the method `Read`, which for the current state and
the length of the buffer it is handed gives the bytes it stored, the error it
returned (`none` for `nil`) and the next state. -/
structure Reader where
  σ : Type
  state : σ
  Read : σ → Nat → List Nat × Option GoError × σ

/-- A byte string as a `[]byte`. -/
abbrev Bytes := List Nat

/-- The type `PublicKey`, a byte string (ring.go converts a `[]byte` to it). -/
abbrev PublicKey := Bytes

/-- The type `PrivateKey`, a byte string (ring.go converts a `[]byte` to it). -/
abbrev PrivateKey := Bytes

/-! ## Big integers and byte strings -/

/-- The value of a big-endian byte string, `new(big.Int).SetBytes(b)`. -/
def SetBytes (b : Bytes) : Nat :=
  b.foldl (fun acc d => acc * 256 + d) 0

/-- The big-endian encoding of `x` in exactly `len` bytes, zero-padded on the left:
`x.FillBytes(buf)` for a buffer of `len` bytes (for `x < 256 ^ len`). -/
def FillBytes : Nat → Nat → Bytes
  | 0, _ => []
  | len + 1, x => FillBytes len (x / 256) ++ [x % 256]

/-- Counts the binary digits of `n`, halving at most `fuel` times. -/
def BitLen.go : Nat → Nat → Nat
  | 0, _ => 0
  | fuel + 1, n => if n = 0 then 0 else BitLen.go fuel (n / 2) + 1

/-- The length in bits of `n`, `n.BitLen()`. -/
def BitLen (n : Nat) : Nat :=
  BitLen.go n n

/-! ## io.ReadFull -/

/-- The loop of `io.ReadAtLeast(r, buf, min)` with `len(buf) = min`:
`for n < min && err == nil { nn, err = r.Read(buf[n:]); n += nn }`, followed by
the translation of the error.  `acc` is `buf[:n]`.  A `Read` stores at most as many
bytes as the buffer it is handed holds, each of them below 256.  `none`: the loop did
not end within `fuel` calls of `Read`. -/
def ReadAtLeast {σ : Type} (Read : σ → Nat → List Nat × Option GoError × σ) (min : Nat) :
    Nat → σ → Bytes → Option (Except GoError Bytes × σ)
  | 0, s, acc => if min ≤ acc.length then some (.ok acc, s) else none
  | fuel + 1, s, acc =>
    if min ≤ acc.length then some (.ok acc, s)
    else
      match Read s (min - acc.length) with
      | (data, err, s') =>
        let acc' := acc ++ (data.take (min - acc.length)).map (· % 256)
        match err with
        | none => ReadAtLeast Read min fuel s' acc'
        | some e =>
          if min ≤ acc'.length then some (.ok acc', s')
          else if 0 < acc'.length ∧ e = GoError.EOF then
            some (.error GoError.ErrUnexpectedEOF, s')
          else some (.error e, s')

/-- The call `io.ReadFull(r, buf)` for a buffer of `len` bytes: the buffer filled, or
the error. -/
def ReadFull {σ : Type} (Read : σ → Nat → List Nat × Option GoError × σ) (len fuel : Nat)
    (s : σ) : Option (Except GoError Bytes × σ) :=
  ReadAtLeast Read len fuel s []

/-! ## crypto/elliptic -/

/-- The part of an `elliptic.Curve` that key generation and marshalling use:
`Params().P`, `Params().N`, `Params().BitSize` and the affine coordinates of `k·G`
for an integer `k` (the point at infinity is `(0, 0)`). -/
structure Curve where
  P : Nat
  N : Nat
  BitSize : Nat
  baseMul : Nat → Nat × Nat

/-- The method `curve.ScalarBaseMult(k)`: `k·G` for the integer that the byte string
`k` is in big-endian form. -/
def Curve.ScalarBaseMult (c : Curve) (k : Bytes) : Nat × Nat :=
  c.baseMul (SetBytes k)

/-- The table `mask` of crypto/elliptic. -/
def mask : List Nat := [0xff, 0x1, 0x3, 0x7, 0xf, 0x1f, 0x3f, 0x7f]

/-- The two statements `priv[0] &= mask[bitSize%8]` and `priv[1] ^= 0x42` of
`elliptic.GenerateKey`, for a scalar of at least two bytes. -/
def adjustPriv (bitSize : Nat) (priv : Bytes) : Bytes :=
  let priv := priv.set 0 (priv.getD 0 0 &&& mask.getD (bitSize % 8) 0)
  priv.set 1 (priv.getD 1 0 ^^^ 0x42)

/-- The loop `for x == nil { ... }` of `elliptic.GenerateKey`: read `byteLen` bytes,
adjust them, start over when the scalar is not below `N`, otherwise multiply the
base point.  `fuel` bounds the calls of `Read` of one `io.ReadFull`, `k` the number
of rounds. -/
def GenerateKey.loop {σ : Type} (c : Curve) (Read : σ → Nat → List Nat × Option GoError × σ)
    (fuel : Nat) : Nat → σ → Option (Except GoError (Bytes × Nat × Nat))
  | 0, _ => none
  | k + 1, s =>
    let bitSize := BitLen c.N
    let byteLen := (bitSize + 7) / 8
    match ReadFull Read byteLen fuel s with
    | none => none
    | some (.error err, _) => some (.error err)
    | some (.ok priv, s') =>
      let priv := adjustPriv bitSize priv
      if c.N ≤ SetBytes priv then GenerateKey.loop c Read fuel k s'
      else
        let xy := c.ScalarBaseMult priv
        some (.ok (priv, xy.1, xy.2))

/-- The function `elliptic.GenerateKey(curve, rand)`: `(priv, x, y)` or the error.
`none`: no result within `fuel` rounds of `fuel` reads. -/
def GenerateKey (c : Curve) (rand : Reader) (fuel : Nat) :
    Option (Except GoError (Bytes × Nat × Nat)) :=
  GenerateKey.loop c rand.Read fuel fuel rand.state

/-- The function `elliptic.Marshal(curve, x, y)`: the uncompressed form of a point. -/
def Marshal (c : Curve) (x y : Nat) : Bytes :=
  let byteLen := (c.BitSize + 7) / 8
  4 :: (FillBytes byteLen x ++ FillBytes byteLen y)

/-- The prime of P-384. -/
def P384.P : Nat :=
  39402006196394479212279040100143613805079739270465446667948293404245721771496870329047266088258938001861606973112319

/-- The order of the base point of P-384. -/
def P384.N : Nat :=
  39402006196394479212279040100143613805079739270465446667946905279627659399113263569398956308152294913554433653942643

/-- The arithmetic of P-384 as a black box: the affine coordinates of `k·G`, which
are field elements. -/
structure P384Arith where
  baseMul : Nat → Nat × Nat
  reduced : ∀ k, (baseMul k).1 < P384.P ∧ (baseMul k).2 < P384.P

/-- The curve `elliptic.P384()`. -/
def P384 (A : P384Arith) : Curve :=
  { P := P384.P, N := P384.N, BitSize := 384, baseMul := A.baseMul }

/-! ## ring.go -/

/-- The function `Generate` of ring.go.  `crand` is `crypto/rand.Reader`, `rand` the
argument (`none` for `nil`).  The result is the pair `(PublicKey, PrivateKey)` or
the panic; `none` when key generation does not end within `fuel`. -/
def Generate (A : P384Arith) (crand : Reader) (fuel : Nat) (rand : Option Reader) :
    Option (Outcome (PublicKey × PrivateKey)) :=
  let rand := match rand with
    | none => crand
    | some r => r
  let curve := P384 A
  match GenerateKey curve rand fuel with
  | none => none
  | some (.error err) => some (.panic ("Could not generate keys: " ++ err.Error))
  | some (.ok (sk, x, y)) =>
    let pk := Marshal curve x y
    some (.ok (pk, sk))

/-! ## The documented algorithms

The group is any commutative group `Pt` with a point `G`; `H m C` is the challenge
`H(m || C)` as a number; `P(i)` is `P.getD i 0`.
-/

/-- A signature without its ring: the stored challenge `e` and `s(0), ..., s(R-1)`. -/
structure Signature where
  e : Nat
  s : List Nat
  deriving DecidableEq, Repr

/-- The tables `e(·)` and `s(·)` that the signing algorithm fills. -/
structure SignState where
  e : Nat → Nat
  s : Nat → Nat

/-- Modelled from the spec: the loop of the signing procedure, which ring.go carries
only as the comment of lines 39-41 (`for i := r+1 % R; i != r; i++`: choose `s(i)`,
compute `e(i+1 % R) = H(m || s(i)*G + e(i)*P(i))`), the index advancing modulo `R`
(spec 4.4, step 3).  `rnd i` is the scalar chosen at random for index `i`.  `none`:
the walk did not come back to `r` within `fuel` steps. -/
def signLoop {Pt Msg : Type} [AddCommGroup Pt] (H : Msg → Pt → Nat) (G : Pt) (m : Msg)
    (P : List Pt) (r : Nat) (rnd : Nat → Nat) : Nat → Nat → SignState → Option SignState
  | 0, i, st => if i = r then some st else none
  | fuel + 1, i, st =>
    if i = r then some st
    else
      let si := rnd i
      let next := (i + 1) % P.length
      let c := H m (si • G + st.e i • P.getD i 0)
      signLoop H G m P r rnd fuel next
        { e := Function.update st.e next c, s := Function.update st.s i si }

/-- The precondition violations of the signing procedure (spec 4.4 and 7): a ring of
fewer than two keys, a signer index outside the ring, a private key that is not the
one of `P(r)`. -/
inductive SignError where
  | ringTooSmall
  | indexOutOfRange
  | keyMismatch
  deriving DecidableEq, Repr

/-- Modelled from the spec: the signing procedure, which ring.go carries only as the
comment of lines 31-43.  `k` is the random nonce, `x` the private key `x(r)`, `n`
the order of the group.  A ring of `R < 2` keys, an index `r` outside `[0, R)` and a
key with `P(r) ≠ x·G` are errors, raised before any arithmetic (spec 4.4 and 7);
`s(r) = k - e(r)*x(r)` is reduced modulo `n` (spec 4.4, step 4); the output holds
`e(0)` and `s(0), ..., s(R-1)` (line 43 of ring.go, spec 3). -/
def Sign {Pt Msg : Type} [AddCommGroup Pt] [DecidableEq Pt] (H : Msg → Pt → Nat) (G : Pt)
    (n : Nat) (m : Msg) (P : List Pt) (r : Nat) (x k : Nat) (rnd : Nat → Nat) :
    Option (Except SignError Signature) :=
  let R := P.length
  if R < 2 then some (.error SignError.ringTooSmall)
  else if R ≤ r then some (.error SignError.indexOutOfRange)
  else if P.getD r 0 ≠ x • G then some (.error SignError.keyMismatch)
  else
    let first := (r + 1) % R
    let st0 : SignState :=
      { e := Function.update (fun _ => 0) first (H m (k • G)), s := fun _ => 0 }
    match signLoop H G m P r rnd R first st0 with
    | none => none
    | some st =>
      let sr := (((k : Int) - (st.e r : Int) * (x : Int)) % (n : Int)).toNat
      let s := Function.update st.s r sr
      some (.ok { e := st.e 0, s := (List.range R).map s })

/-- Modelled from the spec: the recursion of the verifying procedure, which ring.go
carries only as the comment of lines 47-49: `ee = e`, then for `i` from `0` to `R-1`,
`ee = H(m || s(i)*G + ee*P(i))`.  The value is the last `ee`. -/
def verifyRecursion {Pt Msg : Type} [AddCommGroup Pt] (H : Msg → Pt → Nat) (G : Pt) (m : Msg)
    (P : List Pt) (e : Nat) (s : List Nat) : Nat :=
  (List.range P.length).foldl (fun ee i => H m (s.getD i 0 • G + ee • P.getD i 0)) e

/-- Modelled from the spec: the verifying procedure, which ring.go carries only as
the comment of lines 45-50: the signature is valid when the recursion started from
the stored `e` ends in `e`; a signature whose `s` does not have the length of the
ring is invalid (spec 4.5). -/
def Verify {Pt Msg : Type} [AddCommGroup Pt] (H : Msg → Pt → Nat) (G : Pt) (m : Msg)
    (P : List Pt) (sig : Signature) : Bool :=
  decide (sig.s.length = P.length) && decide (verifyRecursion H G m P sig.e sig.s = sig.e)

/-- The challenge `e((r+1+j) mod R)` of the signing procedure, as a recursion on `j`:
`H(m || k*G)` for `j = 0`, and `H(m || s(i)*G + e(i)*P(i))` with `i = (r+j) mod R`
after that. -/
def challengeAt {Pt Msg : Type} [AddCommGroup Pt] (H : Msg → Pt → Nat) (G : Pt) (m : Msg)
    (P : List Pt) (r k : Nat) (rnd : Nat → Nat) : Nat → Nat
  | 0 => H m (k • G)
  | j + 1 =>
    let i := (r + 1 + j) % P.length
    H m (rnd i • G + challengeAt H G m P r k rnd j • P.getD i 0)

/-! ## Properties of randomness sources -/

/-- A byte stream: the bytes `byte 0`, `byte 1`, ... and, for a stream that ends,
`stop = some (L, e)`: the stream has `L` bytes and ends in the error `e`. -/
structure ByteStream where
  byte : Nat → Nat
  stop : Option (Nat × GoError)

/-- The `n` bytes of a stream from position `p` on. -/
def ByteStream.slice (st : ByteStream) : Nat → Nat → Bytes
  | _, 0 => []
  | p, n + 1 => st.byte p :: st.slice (p + 1) n

/-- The reader `rd` yields the byte stream `st`, in chunks of any size: its states
can be given positions in the stream, starting at 0, such that a `Read` into a
buffer of `n > 0` bytes at position `p` stores at most `n` bytes, which are the
bytes of the stream from `p` on and do not go past its end, returns an error only
when the bytes stored reach the end of the stream, and then the error the stream
ends in, does not come back with neither a byte nor an error, and leaves a state
at the position after the bytes stored. -/
def Yields (rd : Reader) (st : ByteStream) : Prop :=
  ∃ I : rd.σ → Nat → Prop, I rd.state 0 ∧
    ∀ s p, I s p → ∀ n, 0 < n →
      (rd.Read s n).1.length ≤ n ∧
      (rd.Read s n).1 = st.slice p (rd.Read s n).1.length ∧
      (∀ L e, st.stop = some (L, e) → p + (rd.Read s n).1.length ≤ L) ∧
      (∀ e, (rd.Read s n).2.1 = some e →
        st.stop = some (p + (rd.Read s n).1.length, e)) ∧
      ((rd.Read s n).1 ≠ [] ∨ (rd.Read s n).2.1 ≠ none) ∧
      I (rd.Read s n).2.2 (p + (rd.Read s n).1.length)

/-- What `io.ReadFull` for a buffer of `len` bytes gives on a byte stream read from
position `p`, and the position after it: the `len` bytes when the stream has them;
otherwise the error the stream ends in, `io.ErrUnexpectedEOF` in place of `io.EOF`
when some bytes were left. -/
def streamReadFull (st : ByteStream) (p len : Nat) : Except GoError Bytes × Nat :=
  match st.stop with
  | none => (.ok ((st.slice p len).map (· % 256)), p + len)
  | some (L, e) =>
    if p + len ≤ L then (.ok ((st.slice p len).map (· % 256)), p + len)
    else if p < L ∧ e = GoError.EOF then (.error GoError.ErrUnexpectedEOF, L)
    else (.error e, L)

/-- Key generation as a function of the byte stream alone: the rounds of
`elliptic.GenerateKey` on the bytes of `st` from position `p` on, `k` rounds at
most. -/
def GenerateKey.ofStream (c : Curve) (st : ByteStream) :
    Nat → Nat → Option (Except GoError (Bytes × Nat × Nat))
  | 0, _ => none
  | k + 1, p =>
    let bitSize := BitLen c.N
    let byteLen := (bitSize + 7) / 8
    match (streamReadFull st p byteLen).1 with
    | .error err => some (.error err)
    | .ok priv =>
      let priv := adjustPriv bitSize priv
      if c.N ≤ SetBytes priv then GenerateKey.ofStream c st k (streamReadFull st p byteLen).2
      else
        let xy := c.ScalarBaseMult priv
        some (.ok (priv, xy.1, xy.2))

/-- The result of `Generate` as a function of the byte stream alone, `rounds` rounds
of key generation at most. -/
def GenerateOfStream (A : P384Arith) (st : ByteStream) (rounds : Nat) :
    Option (Outcome (PublicKey × PrivateKey)) :=
  match GenerateKey.ofStream (P384 A) st rounds 0 with
  | none => none
  | some (.error err) => some (.panic ("Could not generate keys: " ++ err.Error))
  | some (.ok (sk, x, y)) => some (.ok (Marshal (P384 A) x y, sk))

/-- The source in state `s` returns the error `e` before it has supplied the bytes
key generation on the curve `c` needs: either the `byteLen` bytes of this round do
not arrive (`io.ReadFull` ends in `e`), or they arrive, give a scalar that is not
below `N`, so that key generation asks for `byteLen` more, and the source fails
after that. -/
inductive FailsBeforeKey {σ : Type} (c : Curve)
    (Read : σ → Nat → List Nat × Option GoError × σ) : σ → GoError → Prop where
  | now (fuel : Nat) (s s' : σ) (e : GoError)
      (h : ReadFull Read ((BitLen c.N + 7) / 8) fuel s = some (.error e, s')) :
      FailsBeforeKey c Read s e
  | later (fuel : Nat) (s s' : σ) (priv : Bytes) (e : GoError)
      (h : ReadFull Read ((BitLen c.N + 7) / 8) fuel s = some (.ok priv, s'))
      (hrej : c.N ≤ SetBytes (adjustPriv (BitLen c.N) priv))
      (hnext : FailsBeforeKey c Read s' e) :
      FailsBeforeKey c Read s e

/-! ## Sample inputs -/

/-- A reader that hands out the byte `b` forever, as many as asked for. -/
def constReader (b : Nat) : Reader :=
  { σ := Unit, state := (), Read := fun _ n => (List.replicate n b, none, ()) }

/-- A reader that hands out the byte `b` forever, one byte per `Read`. -/
def oneByteReader (b : Nat) : Reader :=
  { σ := Unit, state := (), Read := fun _ n => (List.replicate (min n 1) b, none, ()) }

/-- The byte stream `b, b, b, ...` without end. -/
def constStream (b : Nat) : ByteStream :=
  { byte := fun _ => b, stop := none }

/-- A reader over a fixed byte string that hands out at most `c` bytes per `Read`,
then `io.EOF`. -/
def chunkReader (c : Nat) (l : Bytes) : Reader :=
  { σ := Bytes, state := l,
    Read := fun s n =>
      if s = [] then ([], some GoError.EOF, []) else (s.take (min n c), none, s.drop (min n c)) }

/-- The byte stream of a fixed byte string, ending in `io.EOF`. -/
def listStream (l : Bytes) : ByteStream :=
  { byte := fun i => l.getD i 0, stop := some (l.length, GoError.EOF) }

/-- A reader over a fixed byte string, as `bytes.NewReader`: it hands out what is
left, then `io.EOF`. -/
def bytesReader (l : Bytes) : Reader :=
  { σ := Bytes, state := l,
    Read := fun s n => if s = [] then ([], some GoError.EOF, []) else (s.take n, none, s.drop n) }

/-- A stand-in for the arithmetic of the curve, `k ↦ (k mod p, 7k mod p)`; like the
curve it sends the scalar 0 to `(0, 0)`, the point at infinity. -/
def sampleArith : P384Arith :=
  { baseMul := fun k => (k % P384.P, 7 * k % P384.P),
    reduced := fun _ =>
      ⟨Nat.mod_lt _ (Nat.lt_of_sub_eq_succ rfl), Nat.mod_lt _ (Nat.lt_of_sub_eq_succ rfl)⟩ }

/-- The 48 bytes `00 42 00 ... 00`. -/
def zeroKeyBytes : Bytes := 0 :: 0x42 :: List.replicate 46 0

/-- The 48 bytes `ff bd ff ... ff`. -/
def rejectedBytes : Bytes := 0xff :: 0xbd :: List.replicate 46 0xff

/-- The private key read from a stream of bytes `01`: `01 43 01 ... 01`. -/
def onesKey : PrivateKey := 1 :: 0x43 :: List.replicate 46 1

/-- The private key read from a stream of bytes `02`: `02 40 02 ... 02`. -/
def twosKey : PrivateKey := 2 :: 0x40 :: List.replicate 46 2

/-- The public key that goes with a private key under `sampleArith`. -/
def samplePublic (sk : PrivateKey) : PublicKey :=
  Marshal (P384 sampleArith) (sampleArith.baseMul (SetBytes sk)).1
    (sampleArith.baseMul (SetBytes sk)).2

/-- A sample challenge function into the scalars of a group of order 11. -/
def sampleH (m : List Nat) (C : ZMod 11) : Nat :=
  (m.sum + 7 * C.val + 2) % 11

/-- A sample ring of three keys in the group `ZMod 11` with `G = 1`: the public keys
of the private keys 4, 7 and 9. -/
def sampleRing : List (ZMod 11) := [4, 7, 9]

/-! ## Byte strings -/

theorem SetBytes_append_singleton (l : Bytes) (b : Nat) :
    SetBytes (l ++ [b]) = SetBytes l * 256 + b := by
  simp [SetBytes, List.foldl_append]

theorem FillBytes_length (len x : Nat) : (FillBytes len x).length = len := by
  induction len generalizing x with
  | zero => rfl
  | succ len ih => simp [FillBytes, ih]

theorem FillBytes_lt (len x : Nat) : ∀ b ∈ FillBytes len x, b < 256 := by
  induction len generalizing x with
  | zero => intro b hb; simp [FillBytes] at hb
  | succ len ih =>
    intro b hb
    simp only [FillBytes, List.mem_append, List.mem_singleton] at hb
    rcases hb with hb | hb
    · exact ih _ b hb
    · subst hb; exact Nat.mod_lt _ (by decide)

theorem SetBytes_FillBytes_mod (len x : Nat) : SetBytes (FillBytes len x) = x % 256 ^ len := by
  induction len generalizing x with
  | zero => simp [FillBytes, SetBytes, Nat.mod_one]
  | succ len ih =>
    rw [FillBytes, SetBytes_append_singleton, ih, pow_succ, Nat.mul_comm (256 ^ len) 256,
      Nat.mod_mul]
    ring

theorem SetBytes_FillBytes (len x : Nat) (h : x < 256 ^ len) :
    SetBytes (FillBytes len x) = x := by
  rw [SetBytes_FillBytes_mod, Nat.mod_eq_of_lt h]

set_option maxRecDepth 100000 in
theorem BitLen_P384 : BitLen P384.N = 384 := by decide

theorem P384_P_lt : P384.P < 256 ^ 48 := by decide

theorem adjustPriv_length (bitSize : Nat) (priv : Bytes) :
    (adjustPriv bitSize priv).length = priv.length := by
  simp [adjustPriv]

theorem adjustPriv_lt (bitSize : Nat) (priv : Bytes) (h : ∀ b ∈ priv, b < 256) :
    ∀ b ∈ adjustPriv bitSize priv, b < 256 := by
  intro b hb
  unfold adjustPriv at hb
  rcases List.mem_or_eq_of_mem_set hb with hb | hb
  · rcases List.mem_or_eq_of_mem_set hb with hb | hb
    · exact h b hb
    · subst hb
      refine lt_of_le_of_lt Nat.and_le_left ?_
      by_cases h0 : 0 < priv.length
      · rw [List.getD_eq_getElem _ _ h0]; exact h _ (List.getElem_mem _)
      · rw [List.getD_eq_default _ _ (by omega)]; decide
  · subst hb
    have h1 : (priv.set 0 (priv.getD 0 0 &&& mask.getD (bitSize % 8) 0)).getD 1 0 < 2 ^ 8 := by
      rw [List.getD_eq_getElem?_getD, List.getElem?_set_ne (by decide), ← List.getD_eq_getElem?_getD]
      by_cases h0 : 1 < priv.length
      · rw [List.getD_eq_getElem _ _ h0]; exact h _ (List.getElem_mem _)
      · rw [List.getD_eq_default _ _ (by omega)]; decide
    exact Nat.xor_lt_two_pow h1 (by decide)

/-! ## io.ReadFull -/

theorem ReadAtLeast_ok {σ : Type} (Read : σ → Nat → List Nat × Option GoError × σ) (min : Nat) :
    ∀ (fuel : Nat) (s : σ) (acc out : Bytes) (s' : σ), acc.length ≤ min →
      (∀ b ∈ acc, b < 256) → ReadAtLeast Read min fuel s acc = some (.ok out, s') →
      out.length = min ∧ ∀ b ∈ out, b < 256 := by
  intro fuel
  induction fuel with
  | zero =>
    intro s acc out s' hlen hb h
    simp only [ReadAtLeast] at h
    split at h
    · simp only [Option.some.injEq, Prod.mk.injEq, Except.ok.injEq] at h
      obtain ⟨⟨rfl, _⟩⟩ := h
      exact ⟨by omega, hb⟩
    · simp at h
  | succ fuel ih =>
    intro s acc out s' hlen hb h
    simp only [ReadAtLeast] at h
    split at h
    · simp only [Option.some.injEq, Prod.mk.injEq, Except.ok.injEq] at h
      obtain ⟨⟨rfl, _⟩⟩ := h
      exact ⟨by omega, hb⟩
    · rename_i hlt
      have hlen' : (acc ++ List.map (· % 256)
          (List.take (min - acc.length) (Read s (min - acc.length)).1)).length ≤ min := by
        simp only [List.length_append, List.length_map, List.length_take]
        omega
      have hb' : ∀ b ∈ acc ++ List.map (· % 256)
          (List.take (min - acc.length) (Read s (min - acc.length)).1), b < 256 := by
        intro b hmem
        rcases List.mem_append.1 hmem with hmem | hmem
        · exact hb b hmem
        · obtain ⟨a, _, rfl⟩ := List.mem_map.1 hmem
          exact Nat.mod_lt _ (by decide)
      rcases hrd : Read s (min - acc.length) with ⟨data, err, s1⟩
      rw [hrd] at hlen' hb'
      dsimp only at hlen' hb'
      simp only [hrd] at h
      cases err with
      | none => exact ih s1 _ out s' hlen' hb' h
      | some e =>
        simp only at h
        split at h
        · simp only [Option.some.injEq, Prod.mk.injEq, Except.ok.injEq] at h
          obtain ⟨⟨rfl, _⟩⟩ := h
          exact ⟨by omega, hb'⟩
        · split at h <;> simp at h

theorem ReadAtLeast_mono {σ : Type} (Read : σ → Nat → List Nat × Option GoError × σ) (min : Nat) :
    ∀ (fuel : Nat) (s : σ) (acc : Bytes) (res : Except GoError Bytes × σ),
      ReadAtLeast Read min fuel s acc = some res →
      ReadAtLeast Read min (fuel + 1) s acc = some res := by
  intro fuel
  induction fuel with
  | zero =>
    intro s acc res h
    simp only [ReadAtLeast] at h ⊢
    split at h
    · rename_i hle; simpa [hle] using h
    · simp at h
  | succ fuel ih =>
    intro s acc res h
    rw [ReadAtLeast] at h ⊢
    split at h
    · rename_i hle; simpa [hle] using h
    · rename_i hlt
      rw [if_neg hlt]
      rcases hrd : Read s (min - acc.length) with ⟨data, err, s1⟩
      simp only [hrd] at h ⊢
      cases err with
      | none => exact ih s1 _ res h
      | some e => exact h

theorem ReadFull_mono {σ : Type} (Read : σ → Nat → List Nat × Option GoError × σ)
    (len : Nat) (s : σ) (res : Except GoError Bytes × σ) :
    ∀ (fuel fuel' : Nat), fuel ≤ fuel' → ReadFull Read len fuel s = some res →
      ReadFull Read len fuel' s = some res := by
  intro fuel fuel' hle h
  induction hle with
  | refl => exact h
  | step _ ih => exact ReadAtLeast_mono Read len _ s [] res ih

/-! ## elliptic.GenerateKey -/

theorem GenerateKey_loop_ok {σ : Type} (c : Curve)
    (Read : σ → Nat → List Nat × Option GoError × σ) (fuel : Nat) :
    ∀ (k : Nat) (s : σ) (priv : Bytes) (x y : Nat),
      GenerateKey.loop c Read fuel k s = some (.ok (priv, x, y)) →
      priv.length = (BitLen c.N + 7) / 8 ∧ (∀ b ∈ priv, b < 256) ∧
        SetBytes priv < c.N ∧ (x, y) = c.baseMul (SetBytes priv) := by
  intro k
  induction k with
  | zero => intro s priv x y h; simp [GenerateKey.loop] at h
  | succ k ih =>
    intro s priv x y h
    simp only [GenerateKey.loop] at h
    split at h
    · simp at h
    · simp at h
    · rename_i buf s' hread
      have hbuf := ReadAtLeast_ok Read _ fuel s [] buf s' (Nat.zero_le _)
        (fun b hb => absurd hb (List.not_mem_nil b)) hread
      split at h
      · exact ih s' priv x y h
      · rename_i hlt
        simp only [Option.some.injEq, Except.ok.injEq, Prod.mk.injEq] at h
        obtain ⟨rfl, rfl, rfl⟩ := h
        refine ⟨?_, adjustPriv_lt _ _ hbuf.2, Nat.lt_of_not_le hlt, rfl⟩
        rw [adjustPriv_length]; exact hbuf.1

theorem GenerateKey_loop_mono {σ : Type} (c : Curve)
    (Read : σ → Nat → List Nat × Option GoError × σ) (fuel fuel' : Nat) (hf : fuel ≤ fuel') :
    ∀ (k k' : Nat) (s : σ) (res : Except GoError (Bytes × Nat × Nat)), k ≤ k' →
      GenerateKey.loop c Read fuel k s = some res →
      GenerateKey.loop c Read fuel' k' s = some res := by
  intro k
  induction k with
  | zero => intro k' s res _ h; simp [GenerateKey.loop] at h
  | succ k ih =>
    intro k' s res hk h
    obtain ⟨k', rfl⟩ : ∃ j, k' = j + 1 := ⟨k' - 1, by omega⟩
    simp only [GenerateKey.loop] at h ⊢
    split at h
    · simp at h
    · rename_i err s' hread
      rw [ReadFull_mono Read _ s _ fuel fuel' hf hread]
      exact h
    · rename_i buf s' hread
      rw [ReadFull_mono Read _ s _ fuel fuel' hf hread]
      dsimp only
      split at h
      · rename_i hge
        rw [if_pos hge]
        exact ih k' s' res (by omega) h
      · rename_i hlt
        rw [if_neg hlt]
        exact h

theorem GenerateKey_loop_fails {σ : Type} (c : Curve)
    (Read : σ → Nat → List Nat × Option GoError × σ) (s : σ) (e : GoError)
    (h : FailsBeforeKey c Read s e) :
    ∃ fuel₀, ∀ fuel k, fuel₀ ≤ fuel → fuel₀ ≤ k →
      GenerateKey.loop c Read fuel k s = some (.error e) := by
  induction h with
  | now f s s' e h =>
    refine ⟨f + 1, fun fuel k hfuel hk => ?_⟩
    obtain ⟨k, rfl⟩ : ∃ j, k = j + 1 := ⟨k - 1, by omega⟩
    simp only [GenerateKey.loop]
    rw [ReadFull_mono Read _ s _ f fuel (by omega) h]
  | later f s s' priv e h hrej _ ih =>
    obtain ⟨f₀, hf₀⟩ := ih
    refine ⟨max f f₀ + 1, fun fuel k hfuel hk => ?_⟩
    obtain ⟨k, rfl⟩ : ∃ j, k = j + 1 := ⟨k - 1, by omega⟩
    simp only [GenerateKey.loop]
    rw [ReadFull_mono Read _ s _ f fuel (by omega) h]
    dsimp only
    rw [if_pos hrej]
    exact hf₀ fuel k (by omega) (by omega)

/-! ## Readers and the byte streams they yield -/

theorem slice_length (st : ByteStream) (p n : Nat) : (st.slice p n).length = n := by
  induction n generalizing p with
  | zero => rfl
  | succ n ih => simp [ByteStream.slice, ih]

theorem slice_append (st : ByteStream) (p a b : Nat) :
    st.slice p (a + b) = st.slice p a ++ st.slice (p + a) b := by
  induction a generalizing p with
  | zero => simp [ByteStream.slice]
  | succ a ih =>
    have h : a + 1 + b = (a + b) + 1 := by omega
    have h' : p + (a + 1) = p + 1 + a := by omega
    rw [h, ByteStream.slice, ByteStream.slice, ih, h', List.cons_append]

theorem streamReadFull_ok (st : ByteStream) (q len : Nat)
    (h : ∀ L e, st.stop = some (L, e) → q + len ≤ L) :
    streamReadFull st q len = (.ok ((st.slice q len).map (· % 256)), q + len) := by
  unfold streamReadFull
  cases hstop : st.stop with
  | none => rfl
  | some Le =>
    obtain ⟨L, e⟩ := Le
    simp only [if_pos (h L e hstop)]

theorem streamReadFull_error (st : ByteStream) (q len L : Nat) (e : GoError)
    (hstop : st.stop = some (L, e)) (h : L < q + len) :
    streamReadFull st q len =
      (if q < L ∧ e = GoError.EOF then (.error GoError.ErrUnexpectedEOF, L)
        else (.error e, L)) := by
  unfold streamReadFull
  simp only [hstop, if_neg (Nat.not_le_of_lt h)]

/-- On a reader that yields the stream `st`, `io.ReadFull` gives what the stream
gives, whatever the chunks, once it has the fuel for one `Read` per byte. -/
theorem ReadAtLeast_yields {σ : Type} (Read : σ → Nat → List Nat × Option GoError × σ)
    (st : ByteStream) (I : σ → Nat → Prop)
    (hI : ∀ s p, I s p → ∀ n, 0 < n →
      (Read s n).1.length ≤ n ∧
      (Read s n).1 = st.slice p (Read s n).1.length ∧
      (∀ L e, st.stop = some (L, e) → p + (Read s n).1.length ≤ L) ∧
      (∀ e, (Read s n).2.1 = some e → st.stop = some (p + (Read s n).1.length, e)) ∧
      ((Read s n).1 ≠ [] ∨ (Read s n).2.1 ≠ none) ∧
      I (Read s n).2.2 (p + (Read s n).1.length)) (min q : Nat) :
    ∀ (fuel : Nat) (s : σ) (a : Nat), I s (q + a) → a ≤ min → min - a ≤ fuel →
      ∃ s', ReadAtLeast Read min fuel s ((st.slice q a).map (· % 256)) =
          some ((streamReadFull st q min).1, s') ∧
        I s' (streamReadFull st q min).2 := by
  have hdone : ∀ (fuel : Nat) (s : σ) (a : Nat), I s (q + a) → a ≤ min → min ≤ a →
      ∃ s', ReadAtLeast Read min fuel s ((st.slice q a).map (· % 256)) =
          some ((streamReadFull st q min).1, s') ∧
        I s' (streamReadFull st q min).2 := by
    intro fuel s a hs ha hle
    obtain rfl : a = min := by omega
    have hlen : a ≤ ((st.slice q a).map (· % 256)).length := by
      rw [List.length_map, slice_length]
    have hstop : ∀ L e, st.stop = some (L, e) → q + a ≤ L := by
      intro L e hL
      have := (hI s (q + a) hs 1 (by decide)).2.2.1 L e hL
      omega
    rw [streamReadFull_ok st q a hstop]
    refine ⟨s, ?_, hs⟩
    cases fuel with
    | zero => rw [ReadAtLeast, if_pos hlen]
    | succ fuel => rw [ReadAtLeast, if_pos hlen]
  intro fuel
  induction fuel with
  | zero =>
    intro s a hs ha hfuel
    exact hdone 0 s a hs ha (by omega)
  | succ fuel ih =>
    intro s a hs ha hfuel
    by_cases hle : min ≤ a
    · exact hdone (fuel + 1) s a hs ha hle
    · have hlen : ¬ min ≤ ((st.slice q a).map (· % 256)).length := by
        rw [List.length_map, slice_length]; exact hle
      rw [ReadAtLeast, if_neg hlen]
      have hacc : ((st.slice q a).map (· % 256)).length = a := by
        rw [List.length_map, slice_length]
      rw [hacc]
      obtain ⟨hn, hdata, hstop, herr, hprog, hnext⟩ := hI s (q + a) hs (min - a) (by omega)
      rcases hrd : Read s (min - a) with ⟨d, err, s₁⟩
      rw [hrd] at hn hdata hstop herr hprog hnext
      dsimp only at hn hdata hstop herr hprog hnext ⊢
      have hacc' : (st.slice q a).map (· % 256) ++ (d.take (min - a)).map (· % 256) =
          (st.slice q (a + d.length)).map (· % 256) := by
        rw [List.take_of_length_le hn, slice_append, List.map_append, ← hdata]
      rw [hacc']
      have hpos : q + a + d.length = q + (a + d.length) := by omega
      rw [hpos] at hnext
      cases err with
      | none =>
        dsimp only
        have hd : d ≠ [] := by
          rcases hprog with h | h
          · exact h
          · exact absurd rfl h
        have hdl : 0 < d.length := List.length_pos.2 hd
        exact ih s₁ (a + d.length) hnext (by omega) (by omega)
      | some e =>
        dsimp only
        have hL := herr e rfl
        rw [List.length_map, slice_length]
        by_cases hfull : min ≤ a + d.length
        · rw [if_pos hfull]
          obtain rfl : min = a + d.length := by omega
          have hok : ∀ L e', st.stop = some (L, e') → q + (a + d.length) ≤ L := by
            intro L e' hL'
            rw [hL] at hL'
            simp only [Option.some.injEq, Prod.mk.injEq] at hL'
            omega
          rw [streamReadFull_ok st q _ hok]
          exact ⟨s₁, rfl, hnext⟩
        · rw [if_neg hfull, streamReadFull_error st q min _ e hL (by omega)]
          by_cases hc : 0 < a + d.length ∧ e = GoError.EOF
          · rw [if_pos hc, if_pos ⟨by omega, hc.2⟩]
            exact ⟨s₁, rfl, by rw [hpos]; exact hnext⟩
          · have hc' : ¬ (q < q + a + d.length ∧ e = GoError.EOF) := by
              intro h; exact hc ⟨by omega, h.2⟩
            rw [if_neg hc, if_neg hc']
            exact ⟨s₁, rfl, by rw [hpos]; exact hnext⟩

/-- On a reader that yields the stream `st`, the rounds of `elliptic.GenerateKey`
are the rounds on the stream, once each `io.ReadFull` has the fuel for its bytes. -/
theorem GenerateKey_loop_yields {σ : Type} (c : Curve)
    (Read : σ → Nat → List Nat × Option GoError × σ) (st : ByteStream) (I : σ → Nat → Prop)
    (hI : ∀ s p, I s p → ∀ n, 0 < n →
      (Read s n).1.length ≤ n ∧
      (Read s n).1 = st.slice p (Read s n).1.length ∧
      (∀ L e, st.stop = some (L, e) → p + (Read s n).1.length ≤ L) ∧
      (∀ e, (Read s n).2.1 = some e → st.stop = some (p + (Read s n).1.length, e)) ∧
      ((Read s n).1 ≠ [] ∨ (Read s n).2.1 ≠ none) ∧
      I (Read s n).2.2 (p + (Read s n).1.length))
    (fuel : Nat) (hfuel : (BitLen c.N + 7) / 8 ≤ fuel) :
    ∀ (k : Nat) (s : σ) (p : Nat), I s p →
      GenerateKey.loop c Read fuel k s = GenerateKey.ofStream c st k p := by
  intro k
  induction k with
  | zero => intro s p _; rfl
  | succ k ih =>
    intro s p hs
    obtain ⟨s', hread, hs'⟩ := ReadAtLeast_yields Read st I hI ((BitLen c.N + 7) / 8) p fuel s 0
      hs (Nat.zero_le _) (by omega)
    have hread' : ReadFull Read ((BitLen c.N + 7) / 8) fuel s =
        some ((streamReadFull st p ((BitLen c.N + 7) / 8)).1, s') := hread
    simp only [GenerateKey.loop, GenerateKey.ofStream, hread']
    cases hres : (streamReadFull st p ((BitLen c.N + 7) / 8)).1 with
    | error e => rfl
    | ok buf =>
      dsimp only
      split
      · exact ih s' _ hs'
      · rfl

/-! ## Generate -/

/-- The source `Generate` reads from: the argument, or `crypto/rand.Reader` when the
argument is `nil`. -/
theorem Generate_eq (A : P384Arith) (crand : Reader) (fuel : Nat) (rand : Option Reader) :
    Generate A crand fuel rand =
      match GenerateKey (P384 A) (rand.getD crand) fuel with
      | none => none
      | some (.error err) => some (.panic ("Could not generate keys: " ++ err.Error))
      | some (.ok (sk, x, y)) => some (.ok (Marshal (P384 A) x y, sk)) := by
  cases rand <;> rfl

theorem Generate_ok (A : P384Arith) (crand : Reader) (fuel : Nat) (rand : Option Reader)
    (pk : PublicKey) (sk : PrivateKey) (h : Generate A crand fuel rand = some (.ok (pk, sk))) :
    pk = Marshal (P384 A) (A.baseMul (SetBytes sk)).1 (A.baseMul (SetBytes sk)).2 ∧
      sk.length = 48 ∧ (∀ b ∈ sk, b < 256) ∧ SetBytes sk < P384.N := by
  rw [Generate_eq] at h
  split at h
  · simp at h
  · simp at h
  · rename_i sk' x y hgen
    simp only [Option.some.injEq, Outcome.ok.injEq, Prod.mk.injEq] at h
    obtain ⟨rfl, rfl⟩ := h
    obtain ⟨hlen, hb, hlt, hxy⟩ := GenerateKey_loop_ok (P384 A) _ fuel fuel _ _ _ _ hgen
    have hN : (P384 A).N = P384.N := rfl
    rw [hN, BitLen_P384] at hlen
    have hx : x = (A.baseMul (SetBytes sk')).1 := congrArg Prod.fst hxy
    have hy : y = (A.baseMul (SetBytes sk')).2 := congrArg Prod.snd hxy
    exact ⟨by rw [hx, hy], hlen, hb, hlt⟩

theorem Marshal_P384 (A : P384Arith) (x y : Nat) :
    Marshal (P384 A) x y = 4 :: (FillBytes 48 x ++ FillBytes 48 y) := by
  simp [Marshal, P384]

theorem baseMul_fits (A : P384Arith) (k : Nat) :
    (A.baseMul k).1 < 256 ^ 48 ∧ (A.baseMul k).2 < 256 ^ 48 :=
  ⟨lt_trans (A.reduced k).1 P384_P_lt, lt_trans (A.reduced k).2 P384_P_lt⟩

theorem Marshal_P384_inj (A : P384Arith) (k k' : Nat)
    (h : Marshal (P384 A) (A.baseMul k).1 (A.baseMul k).2 =
      Marshal (P384 A) (A.baseMul k').1 (A.baseMul k').2) :
    A.baseMul k = A.baseMul k' := by
  rw [Marshal_P384, Marshal_P384] at h
  have h' := List.tail_eq_of_cons_eq h
  obtain ⟨hx, hy⟩ := List.append_inj h' (by rw [FillBytes_length, FillBytes_length])
  have hx' := congrArg SetBytes hx
  have hy' := congrArg SetBytes hy
  rw [SetBytes_FillBytes _ _ (baseMul_fits A k).1, SetBytes_FillBytes _ _ (baseMul_fits A k').1]
    at hx'
  rw [SetBytes_FillBytes _ _ (baseMul_fits A k).2, SetBytes_FillBytes _ _ (baseMul_fits A k').2]
    at hy'
  exact Prod.ext hx' hy'

/-! ## The claims about Generate -/

/-- C1: whenever `Generate` returns a pair `(pk, sk)`, `pk` is the encoding
(`elliptic.Marshal`) of the point `x·G` of P-384, where `x` is the big-endian value
of `sk`. -/
theorem Generate_public_of_private (A : P384Arith) (crand : Reader) (fuel : Nat)
    (rand : Option Reader) (pk : PublicKey) (sk : PrivateKey)
    (h : Generate A crand fuel rand = some (.ok (pk, sk))) :
    pk = Marshal (P384 A) ((P384 A).baseMul (SetBytes sk)).1 ((P384 A).baseMul (SetBytes sk)).2 :=
  (Generate_ok A crand fuel rand pk sk h).1

set_option maxRecDepth 100000 in
/-- C1 at a source of bytes `01`: the pair returned and its public key. -/
theorem Generate_public_of_private_witness :
    Generate sampleArith (constReader 0) 1 (some (constReader 1)) =
        some (.ok (samplePublic onesKey, onesKey)) ∧
      samplePublic onesKey =
        Marshal (P384 sampleArith) ((P384 sampleArith).baseMul (SetBytes onesKey)).1
          ((P384 sampleArith).baseMul (SetBytes onesKey)).2 :=
  ⟨by decide, Generate_public_of_private sampleArith (constReader 0) 1 (some (constReader 1))
    (samplePublic onesKey) onesKey (by decide)⟩

set_option maxRecDepth 100000 in
/-- C2 as stated fails: from the source `00 42 00 ... 00` `Generate` returns the
private key of 48 zero bytes, whose scalar is 0 and not in `[1, n-1]`. -/
theorem Generate_zero_scalar :
    Generate sampleArith (constReader 0) 1 (some (bytesReader zeroKeyBytes)) =
        some (.ok (samplePublic (List.replicate 48 0), List.replicate 48 0)) ∧
      ¬ (1 ≤ SetBytes (List.replicate 48 0) ∧ SetBytes (List.replicate 48 0) ≤ P384.N - 1) :=
  ⟨by decide, by decide⟩

/-- C2, amended: whenever `Generate` returns a pair `(pk, sk)`, the private scalar
`x`, the big-endian value of `sk`, satisfies `0 ≤ x ≤ n - 1` for the order `n` of
P-384: it is never `n` or more. -/
theorem Generate_scalar_below_order (A : P384Arith) (crand : Reader) (fuel : Nat)
    (rand : Option Reader) (pk : PublicKey) (sk : PrivateKey)
    (h : Generate A crand fuel rand = some (.ok (pk, sk))) :
    0 ≤ SetBytes sk ∧ SetBytes sk ≤ P384.N - 1 ∧ ¬ P384.N ≤ SetBytes sk := by
  have hlt := (Generate_ok A crand fuel rand pk sk h).2.2.2
  exact ⟨Nat.zero_le _, Nat.le_sub_one_of_lt hlt, Nat.not_le_of_lt hlt⟩

set_option maxRecDepth 100000 in
/-- C2, amended, at a source of bytes `02`. -/
theorem Generate_scalar_below_order_witness :
    Generate sampleArith (constReader 0) 1 (some (constReader 2)) =
        some (.ok (samplePublic twosKey, twosKey)) ∧
      0 ≤ SetBytes twosKey ∧ SetBytes twosKey ≤ P384.N - 1 ∧ ¬ P384.N ≤ SetBytes twosKey :=
  ⟨by decide, Generate_scalar_below_order sampleArith (constReader 0) 1 (some (constReader 2))
    (samplePublic twosKey) twosKey (by decide)⟩

/-- C3: when the source returns an error before it has supplied the bytes key
generation needs, `Generate` (given enough fuel to get there) returns no pair: it
panics with "Could not generate keys: " followed by the text of the error, whatever
the default reader is. -/
theorem Generate_panics_on_source_error (A : P384Arith) (rd : Reader) (e : GoError)
    (h : FailsBeforeKey (P384 A) rd.Read rd.state e) :
    ∃ fuel₀, ∀ (fuel : Nat) (crand : Reader), fuel₀ ≤ fuel →
      Generate A crand fuel (some rd) =
        some (.panic ("Could not generate keys: " ++ e.Error)) := by
  obtain ⟨f₀, hf₀⟩ := GenerateKey_loop_fails (P384 A) rd.Read rd.state e h
  refine ⟨f₀, fun fuel crand hfuel => ?_⟩
  have hk : GenerateKey (P384 A) rd fuel = some (.error e) := hf₀ fuel fuel hfuel hfuel
  rw [Generate_eq, Option.getD_some, hk]

set_option maxRecDepth 100000 in
/-- C3 at the source `ff bd ff ... ff`: its 48 bytes give a scalar that is not below
`n`, and the next read ends in `io.EOF`. -/
theorem Generate_panics_on_source_error_witness :
    ∃ fuel₀, ∀ (fuel : Nat) (crand : Reader), fuel₀ ≤ fuel →
      Generate sampleArith crand fuel (some (bytesReader rejectedBytes)) =
        some (.panic "Could not generate keys: EOF") :=
  Generate_panics_on_source_error sampleArith (bytesReader rejectedBytes) GoError.EOF
    (FailsBeforeKey.later 1 rejectedBytes [] rejectedBytes GoError.EOF (by decide) (by decide)
      (FailsBeforeKey.now 1 [] [] GoError.EOF (by decide)))

/-- C4: `Generate` called with `nil` is `Generate` called with `crypto/rand.Reader`,
and with a source that is not `nil` the result does not depend on what
`crypto/rand.Reader` is: the source handed in is the one read. -/
theorem Generate_nil_is_default (A : P384Arith) (crand : Reader) (fuel : Nat) :
    Generate A crand fuel none = Generate A crand fuel (some crand) ∧
      ∀ (rd crand' : Reader),
        Generate A crand fuel (some rd) =
          (match GenerateKey (P384 A) rd fuel with
          | none => none
          | some (Except.error err) =>
            some (Outcome.panic ("Could not generate keys: " ++ err.Error))
          | some (Except.ok (sk, x, y)) => some (Outcome.ok (Marshal (P384 A) x y, sk))) ∧
        Generate A crand fuel (some rd) = Generate A crand' fuel (some rd) :=
  ⟨rfl, fun _ _ => ⟨rfl, rfl⟩⟩

theorem Generate_mono (A : P384Arith) (crand : Reader) (rand : Option Reader)
    (fuel fuel' : Nat) (hf : fuel ≤ fuel') (o : Outcome (PublicKey × PrivateKey))
    (h : Generate A crand fuel rand = some o) : Generate A crand fuel' rand = some o := by
  rw [Generate_eq] at h ⊢
  cases hk : GenerateKey (P384 A) (rand.getD crand) fuel with
  | none => rw [hk] at h; simp at h
  | some res =>
    have hk' : GenerateKey (P384 A) (rand.getD crand) fuel' = some res :=
      GenerateKey_loop_mono (P384 A) _ fuel fuel' hf fuel fuel' _ res hf hk
    rw [hk] at h
    rw [hk']
    exact h

theorem Generate_yields (A : P384Arith) (st : ByteStream) (rd : Reader) (h : Yields rd st)
    (crand : Reader) (fuel : Nat) (hfuel : 48 ≤ fuel) :
    Generate A crand fuel (some rd) = GenerateOfStream A st fuel := by
  obtain ⟨I, h0, hI⟩ := h
  have hN : (BitLen (P384 A).N + 7) / 8 ≤ fuel := by
    have : (P384 A).N = P384.N := rfl
    rw [this, BitLen_P384]; exact hfuel
  have hk : GenerateKey (P384 A) rd fuel = GenerateKey.ofStream (P384 A) st fuel 0 :=
    GenerateKey_loop_yields (P384 A) rd.Read st I hI fuel hN fuel rd.state 0 h0
  rw [Generate_eq, Option.getD_some, hk]
  rfl

/-- C7: `Generate` is a function of the bytes it reads.  For two sources that yield
the same byte stream, in whatever chunks, and any two default readers: with the fuel
to read 48 bytes both calls give what the stream alone determines; whenever both
calls end, at any two fuels, they end alike, both panicking with the same message
or both returning the same pair; and when one call ends, so does the other, given
enough fuel. -/
theorem Generate_function_of_bytes (A : P384Arith) (st : ByteStream) (r₁ r₂ : Reader)
    (h₁ : Yields r₁ st) (h₂ : Yields r₂ st) (crand₁ crand₂ : Reader) :
    (∀ fuel, 48 ≤ fuel →
      Generate A crand₁ fuel (some r₁) = GenerateOfStream A st fuel ∧
      Generate A crand₂ fuel (some r₂) = GenerateOfStream A st fuel) ∧
    (∀ f₁ f₂ o₁ o₂, Generate A crand₁ f₁ (some r₁) = some o₁ →
      Generate A crand₂ f₂ (some r₂) = some o₂ → o₁ = o₂) ∧
    (∀ f₁ o, Generate A crand₁ f₁ (some r₁) = some o →
      ∀ f₂, max f₁ 48 ≤ f₂ → Generate A crand₂ f₂ (some r₂) = some o) ∧
    (∀ f₂ o, Generate A crand₂ f₂ (some r₂) = some o →
      ∀ f₁, max f₂ 48 ≤ f₁ → Generate A crand₁ f₁ (some r₁) = some o) := by
  refine ⟨fun fuel hfuel => ⟨Generate_yields A st r₁ h₁ crand₁ fuel hfuel,
    Generate_yields A st r₂ h₂ crand₂ fuel hfuel⟩, ?_, ?_, ?_⟩
  · intro f₁ f₂ o₁ o₂ ho₁ ho₂
    have hb₁ := Generate_mono A crand₁ (some r₁) f₁ (max (max f₁ f₂) 48) (by omega) o₁ ho₁
    have hb₂ := Generate_mono A crand₂ (some r₂) f₂ (max (max f₁ f₂) 48) (by omega) o₂ ho₂
    rw [Generate_yields A st r₁ h₁ crand₁ _ (by omega)] at hb₁
    rw [Generate_yields A st r₂ h₂ crand₂ _ (by omega)] at hb₂
    exact Option.some.inj (hb₁.symm.trans hb₂)
  · intro f₁ o ho f₂ hf₂
    have hb := Generate_mono A crand₁ (some r₁) f₁ f₂ (by omega) o ho
    rw [Generate_yields A st r₁ h₁ crand₁ f₂ (by omega)] at hb
    rw [Generate_yields A st r₂ h₂ crand₂ f₂ (by omega)]
    exact hb
  · intro f₂ o ho f₁ hf₁
    have hb := Generate_mono A crand₂ (some r₂) f₂ f₁ (by omega) o ho
    rw [Generate_yields A st r₂ h₂ crand₂ f₁ (by omega)] at hb
    rw [Generate_yields A st r₁ h₁ crand₁ f₁ (by omega)]
    exact hb

theorem slice_constStream (b p n : Nat) : (constStream b).slice p n = List.replicate n b := by
  induction n generalizing p with
  | zero => rfl
  | succ n ih => rw [ByteStream.slice, ih, List.replicate_succ]; rfl

theorem constReader_yields (b : Nat) : Yields (constReader b) (constStream b) := by
  refine ⟨fun _ _ => True, trivial, fun s p _ n hn => ?_⟩
  have hrd : (constReader b).Read s n = (List.replicate n b, none, ()) := rfl
  rw [hrd]
  refine ⟨by simp, by simp [slice_constStream], fun L e h => by simp [constStream] at h,
    fun e h => by simp at h, Or.inl ?_, trivial⟩
  intro h
  have := congrArg List.length h
  simp at this
  omega

theorem oneByteReader_yields (b : Nat) : Yields (oneByteReader b) (constStream b) := by
  refine ⟨fun _ _ => True, trivial, fun s p _ n hn => ?_⟩
  have hmin : min n 1 = 1 := by omega
  have hrd : (oneByteReader b).Read s n = ([b], none, ()) := by
    show (List.replicate (min n 1) b, none, ()) = _
    rw [hmin]; rfl
  rw [hrd]
  refine ⟨by simpa using hn, by simp [slice_constStream], fun L e h => by simp [constStream] at h,
    fun e h => by simp at h, Or.inl (by simp), trivial⟩

theorem slice_listStream (l : Bytes) (p n : Nat) (h : p + n ≤ l.length) :
    (listStream l).slice p n = (l.drop p).take n := by
  induction n generalizing p with
  | zero => simp [ByteStream.slice]
  | succ n ih =>
    have hp : p < l.length := by omega
    rw [ByteStream.slice, ih (p + 1) (by omega), List.drop_eq_getElem_cons hp, List.take_succ_cons]
    show l.getD p 0 :: _ = _
    rw [List.getD_eq_getElem _ _ hp]

theorem chunkReader_yields (c : Nat) (hc : 0 < c) (l : Bytes) :
    Yields (chunkReader c l) (listStream l) := by
  refine ⟨fun s p => s = l.drop p ∧ p ≤ l.length, ⟨rfl, Nat.zero_le _⟩, ?_⟩
  rintro s p ⟨rfl, hp⟩ n hn
  by_cases hnil : l.drop p = []
  · have hpl : p = l.length := by
      have := List.drop_eq_nil_iff.1 hnil
      omega
    have hrd : (chunkReader c l).Read (l.drop p) n = ([], some GoError.EOF, []) := by
      show (if l.drop p = [] then _ else _) = _
      rw [if_pos hnil]
    rw [hrd]
    refine ⟨Nat.zero_le _, rfl, ?_, ?_, Or.inr (by simp), ?_, hp⟩
    · intro L e h
      simp only [listStream, Option.some.injEq, Prod.mk.injEq] at h
      simp only [List.length_nil]; omega
    · intro e h
      simp only [Option.some.injEq] at h
      subst h
      simp only [List.length_nil, Nat.add_zero, listStream, hpl]
    · simp only [List.length_nil, Nat.add_zero]; exact hnil.symm
  · have hpl : p < l.length := by
      rcases Nat.lt_or_ge p l.length with h | h
      · exact h
      · exact absurd (List.drop_eq_nil_of_le h) hnil
    have hrd : (chunkReader c l).Read (l.drop p) n =
        ((l.drop p).take (min n c), none, (l.drop p).drop (min n c)) := by
      show (if l.drop p = [] then _ else _) = _
      rw [if_neg hnil]
    rw [hrd]
    have hlen : ((l.drop p).take (min n c)).length = min (min n c) (l.length - p) := by
      rw [List.length_take, List.length_drop]
    dsimp only
    rw [hlen]
    refine ⟨by omega, ?_, ?_, fun e h => by simp at h, Or.inl ?_, ?_, by omega⟩
    · rw [slice_listStream l p _ (by omega)]
      apply List.take_eq_take.2
      rw [List.length_drop]
      omega
    · intro L e h
      simp only [listStream, Option.some.injEq, Prod.mk.injEq] at h
      omega
    · intro h
      have := congrArg List.length h
      rw [hlen, List.length_nil] at this
      omega
    · rw [List.drop_drop]
      rcases Nat.lt_or_ge (min n c) (l.length - p) with h | h
      · rw [Nat.min_eq_left (Nat.le_of_lt h)]
      · rw [Nat.min_eq_right h, List.drop_eq_nil_of_le (by omega),
          List.drop_eq_nil_of_le (by omega)]

set_option maxRecDepth 100000 in
/-- C7 at two readers of the stream `01 01 01 ...`, one handing out whole buffers and
one a byte per `Read`, with different default readers: the first returns its pair at
fuel 1, the second runs out of fuel there and returns the same pair at fuel 48.  And
at two readers of the 48 bytes `ff bd ff ... ff` followed by `io.EOF`, in chunks of
48 bytes and of one byte: both panic with the same message. -/
theorem Generate_function_of_bytes_witness :
    Yields (constReader 1) (constStream 1) ∧ Yields (oneByteReader 1) (constStream 1) ∧
      Generate sampleArith (constReader 0) 1 (some (constReader 1)) =
        some (.ok (samplePublic onesKey, onesKey)) ∧
      Generate sampleArith (constReader 2) 1 (some (oneByteReader 1)) = none ∧
      Generate sampleArith (constReader 2) 48 (some (oneByteReader 1)) =
        some (.ok (samplePublic onesKey, onesKey)) ∧
      (∀ fuel, 48 ≤ fuel →
        Generate sampleArith (constReader 0) fuel (some (constReader 1)) =
          GenerateOfStream sampleArith (constStream 1) fuel ∧
        Generate sampleArith (constReader 2) fuel (some (oneByteReader 1)) =
          GenerateOfStream sampleArith (constStream 1) fuel) ∧
      Generate sampleArith (constReader 0) 2 (some (chunkReader 48 rejectedBytes)) =
        some (.panic "Could not generate keys: EOF") ∧
      (∀ fuel, max 2 48 ≤ fuel →
        Generate sampleArith (constReader 2) fuel (some (chunkReader 1 rejectedBytes)) =
          some (.panic "Could not generate keys: EOF")) :=
  ⟨constReader_yields 1, oneByteReader_yields 1, by decide, by decide,
    (Generate_function_of_bytes sampleArith (constStream 1) (constReader 1) (oneByteReader 1)
      (constReader_yields 1) (oneByteReader_yields 1) (constReader 0) (constReader 2)).2.2.1
      1 _ (by decide) 48 (by decide),
    (Generate_function_of_bytes sampleArith (constStream 1) (constReader 1) (oneByteReader 1)
      (constReader_yields 1) (oneByteReader_yields 1) (constReader 0) (constReader 2)).1,
    by decide,
    (Generate_function_of_bytes sampleArith (listStream rejectedBytes)
      (chunkReader 48 rejectedBytes) (chunkReader 1 rejectedBytes)
      (chunkReader_yields 48 (by decide) rejectedBytes)
      (chunkReader_yields 1 (by decide) rejectedBytes) (constReader 0) (constReader 2)).2.2.1
      2 _ (by decide)⟩

/-- C8: every pair `(pk, sk)` that `Generate` returns has a fixed-length encoding:
`sk` is 48 bytes, the byte length of the order of P-384; `pk` is 97 bytes, the byte
`0x04` followed by the 48-byte big-endian X and the 48-byte big-endian Y of the point
`x·G`; and two returned public keys are equal exactly when their points are. -/
theorem Generate_fixed_length (A : P384Arith) (crand : Reader) (fuel : Nat)
    (rand : Option Reader) (pk : PublicKey) (sk : PrivateKey)
    (h : Generate A crand fuel rand = some (.ok (pk, sk))) :
    (BitLen P384.N + 7) / 8 = 48 ∧ sk.length = 48 ∧ (∀ b ∈ sk, b < 256) ∧
      pk.length = 97 ∧ (∀ b ∈ pk, b < 256) ∧
      (∃ X Y, A.baseMul (SetBytes sk) = (X, Y) ∧
        pk = 0x04 :: (FillBytes 48 X ++ FillBytes 48 Y) ∧
        (FillBytes 48 X).length = 48 ∧ SetBytes (FillBytes 48 X) = X ∧
        (FillBytes 48 Y).length = 48 ∧ SetBytes (FillBytes 48 Y) = Y) ∧
      ∀ (crand' : Reader) (fuel' : Nat) (rand' : Option Reader) (pk' : PublicKey)
        (sk' : PrivateKey), Generate A crand' fuel' rand' = some (.ok (pk', sk')) →
        (A.baseMul (SetBytes sk) = A.baseMul (SetBytes sk') ↔ pk = pk') := by
  obtain ⟨hpk, hlen, hb, _⟩ := Generate_ok A crand fuel rand pk sk h
  have hfit := baseMul_fits A (SetBytes sk)
  refine ⟨by rw [BitLen_P384], hlen, hb, ?_, ?_, ?_, ?_⟩
  · rw [hpk, Marshal_P384]
    simp [FillBytes_length]
  · intro b hmem
    rw [hpk, Marshal_P384] at hmem
    rcases List.mem_cons.1 hmem with rfl | hmem
    · decide
    · rcases List.mem_append.1 hmem with hmem | hmem
      · exact FillBytes_lt _ _ b hmem
      · exact FillBytes_lt _ _ b hmem
  · exact ⟨_, _, rfl, by rw [hpk, Marshal_P384], FillBytes_length _ _,
      SetBytes_FillBytes _ _ hfit.1, FillBytes_length _ _, SetBytes_FillBytes _ _ hfit.2⟩
  · intro crand' fuel' rand' pk' sk' h'
    have hpk' := (Generate_ok A crand' fuel' rand' pk' sk' h').1
    constructor
    · intro heq
      rw [hpk, hpk', heq]
    · intro heq
      rw [hpk, hpk'] at heq
      exact Marshal_P384_inj A _ _ heq

set_option maxRecDepth 100000 in
/-- C8 at a source of bytes `01` (and at one of bytes `02` for the second pair). -/
theorem Generate_fixed_length_witness :
    Generate sampleArith (constReader 0) 1 (some (constReader 1)) =
        some (.ok (samplePublic onesKey, onesKey)) ∧
      onesKey.length = 48 ∧ (samplePublic onesKey).length = 97 ∧
      (samplePublic onesKey).head? = some 4 ∧
      (sampleArith.baseMul (SetBytes onesKey) = sampleArith.baseMul (SetBytes twosKey) ↔
        samplePublic onesKey = samplePublic twosKey) :=
  have h := Generate_fixed_length sampleArith (constReader 0) 1 (some (constReader 1))
    (samplePublic onesKey) onesKey (by decide)
  ⟨by decide, h.2.1, h.2.2.2.1, by decide,
    h.2.2.2.2.2.2 (constReader 0) 1 (some (constReader 2)) (samplePublic twosKey) twosKey
      (by decide)⟩

/-- Progress of `Generate`: when the source supplies 48 bytes whose adjusted scalar
is below the order of P-384, `Generate` returns the pair made of these bytes (given
the fuel to read them). -/
theorem Generate_returns_pair (A : P384Arith) (rd : Reader) (fuel : Nat) (priv : Bytes)
    (s' : rd.σ) (hread : ReadFull rd.Read 48 fuel rd.state = some (.ok priv, s'))
    (hlt : SetBytes (adjustPriv 384 priv) < P384.N) (fuel' : Nat) (crand : Reader)
    (hfuel : fuel ≤ fuel') (hpos : 0 < fuel') :
    Generate A crand fuel' (some rd) =
      some (.ok (Marshal (P384 A) (A.baseMul (SetBytes (adjustPriv 384 priv))).1
        (A.baseMul (SetBytes (adjustPriv 384 priv))).2, adjustPriv 384 priv)) := by
  obtain ⟨k, rfl⟩ : ∃ j, fuel' = j + 1 := ⟨fuel' - 1, by omega⟩
  have hN : (P384 A).N = P384.N := rfl
  have hk : GenerateKey (P384 A) rd (k + 1) =
      some (.ok (adjustPriv 384 priv, (A.baseMul (SetBytes (adjustPriv 384 priv))).1,
        (A.baseMul (SetBytes (adjustPriv 384 priv))).2)) := by
    simp only [GenerateKey, GenerateKey.loop, hN, BitLen_P384]
    rw [ReadFull_mono rd.Read 48 rd.state _ fuel (k + 1) hfuel hread]
    dsimp only
    rw [if_neg (Nat.not_le_of_lt hlt)]
    rfl
  rw [Generate_eq, Option.getD_some, hk]

set_option maxRecDepth 100000 in
/-- Progress of `Generate` at a reader over the 48 bytes `00 42 00 ... 00`. -/
theorem Generate_returns_pair_witness :
    Generate sampleArith (constReader 0) 3 (some (bytesReader zeroKeyBytes)) =
      some (.ok (Marshal (P384 sampleArith)
        (sampleArith.baseMul (SetBytes (adjustPriv 384 zeroKeyBytes))).1
        (sampleArith.baseMul (SetBytes (adjustPriv 384 zeroKeyBytes))).2,
        adjustPriv 384 zeroKeyBytes)) :=
  Generate_returns_pair sampleArith (bytesReader zeroKeyBytes) 1 zeroKeyBytes []
    (show @ReadFull Bytes (bytesReader zeroKeyBytes).Read 48 1 zeroKeyBytes =
      some (.ok zeroKeyBytes, []) by decide)
    (by decide) 3 (constReader 0) (by decide) (by decide)

set_option maxRecDepth 100000 in
/-- Whatever the arithmetic of the curve and the default reader, the source
`00 42 00 ... 00` makes `Generate` return the private key of 48 zero bytes, the
scalar 0, with the encoding of `0·G` as public key. -/
theorem Generate_zero_scalar_any_arith (A : P384Arith) (crand : Reader) (fuel : Nat) :
    Generate A crand (fuel + 1) (some (bytesReader zeroKeyBytes)) =
        some (.ok (Marshal (P384 A) (A.baseMul 0).1 (A.baseMul 0).2, List.replicate 48 0)) ∧
      SetBytes (List.replicate 48 0) = 0 := by
  have h := Generate_returns_pair A (bytesReader zeroKeyBytes) 1 zeroKeyBytes []
    (show @ReadFull Bytes (bytesReader zeroKeyBytes).Read 48 1 zeroKeyBytes =
      some (.ok zeroKeyBytes, []) by decide)
    (by decide) (fuel + 1) crand (by omega) (by omega)
  have hadj : adjustPriv 384 zeroKeyBytes = List.replicate 48 0 := by decide
  have hz : SetBytes (List.replicate 48 0) = 0 := by decide
  rw [hadj, hz] at h
  exact ⟨h, hz⟩

/-! ## The signing and verifying algorithms -/

section Schnorr

variable {Pt Msg : Type} [AddCommGroup Pt]

theorem walk_index_inj (R r j₁ j₂ : Nat) (h₁ : j₁ < R) (h₂ : j₂ < R)
    (h : (r + 1 + j₁) % R = (r + 1 + j₂) % R) : j₁ = j₂ := by
  have h' : j₁ % R = j₂ % R := Nat.ModEq.add_left_cancel' (r + 1) h
  rwa [Nat.mod_eq_of_lt h₁, Nat.mod_eq_of_lt h₂] at h'

theorem walk_index_last (R r : Nat) (hR : 0 < R) (hr : r < R) :
    (r + 1 + (R - 1)) % R = r := by
  have : r + 1 + (R - 1) = r + R := by omega
  rw [this, Nat.add_mod_right, Nat.mod_eq_of_lt hr]

theorem walk_index_succ (R r j : Nat) :
    ((r + 1 + j) % R + 1) % R = (r + 1 + (j + 1)) % R := by
  rw [Nat.mod_add_mod]; rfl

theorem walk_index_surj (R r i : Nat) (hr : r < R) (hi : i < R) :
    ∃ j, j < R ∧ (r + 1 + j) % R = i := by
  refine ⟨(i + (R - 1 - r)) % R, Nat.mod_lt _ (by omega), ?_⟩
  rw [Nat.add_mod_mod]
  have : r + 1 + (i + (R - 1 - r)) = i + R := by omega
  rw [this, Nat.add_mod_right, Nat.mod_eq_of_lt hi]

theorem signLoop_spec (H : Msg → Pt → Nat) (G : Pt) (m : Msg) (P : List Pt) (r k : Nat)
    (rnd : Nat → Nat) (hR : 0 < P.length) (hr : r < P.length) :
    ∀ (fuel j : Nat) (st : SignState), j ≤ P.length - 1 → P.length - 1 - j ≤ fuel →
      (∀ t, t ≤ j → st.e ((r + 1 + t) % P.length) = challengeAt H G m P r k rnd t) →
      (∀ t, t < j → st.s ((r + 1 + t) % P.length) = rnd ((r + 1 + t) % P.length)) →
      ∃ st', signLoop H G m P r rnd fuel ((r + 1 + j) % P.length) st = some st' ∧
        (∀ t, t ≤ P.length - 1 →
          st'.e ((r + 1 + t) % P.length) = challengeAt H G m P r k rnd t) ∧
        (∀ t, t < P.length - 1 →
          st'.s ((r + 1 + t) % P.length) = rnd ((r + 1 + t) % P.length)) := by
  intro fuel
  induction fuel with
  | zero =>
    intro j st hj hfuel he hs
    have hjl : j = P.length - 1 := by omega
    subst hjl
    refine ⟨st, ?_, he, hs⟩
    rw [walk_index_last _ _ hR hr]
    simp [signLoop]
  | succ fuel ih =>
    intro j st hj hfuel he hs
    by_cases hjl : j = P.length - 1
    · subst hjl
      refine ⟨st, ?_, he, hs⟩
      rw [walk_index_last _ _ hR hr]
      simp [signLoop]
    · have hne : (r + 1 + j) % P.length ≠ r := by
        intro hcon
        exact hjl (walk_index_inj P.length r j (P.length - 1) (by omega) (by omega)
          (hcon.trans (walk_index_last _ _ hR hr).symm))
      rw [signLoop, if_neg hne]
      dsimp only
      rw [walk_index_succ]
      apply ih (j + 1) _ (by omega) (by omega)
      · intro t ht
        dsimp only
        by_cases htj : t = j + 1
        · subst htj
          rw [Function.update_same, he j (le_refl j)]
          rfl
        · have hne' : (r + 1 + t) % P.length ≠ (r + 1 + (j + 1)) % P.length :=
            fun hcon => htj (walk_index_inj _ _ _ _ (by omega) (by omega) hcon)
          rw [Function.update_noteq hne']
          exact he t (by omega)
      · intro t ht
        dsimp only
        by_cases htj : t = j
        · subst htj
          rw [Function.update_same]
        · have hne' : (r + 1 + t) % P.length ≠ (r + 1 + j) % P.length :=
            fun hcon => htj (walk_index_inj _ _ _ _ (by omega) (by omega) hcon)
          rw [Function.update_noteq hne']
          exact hs t (by omega)

/-- The output of the signing procedure in terms of the tables `e` and `s` when the
walk is over. -/
theorem Sign_spec [DecidableEq Pt] (H : Msg → Pt → Nat) (G : Pt) (n : Nat) (m : Msg)
    (P : List Pt) (r x k : Nat) (rnd : Nat → Nat) (hR : 2 ≤ P.length) (hr : r < P.length)
    (hP : P.getD r 0 = x • G) :
    ∃ (e s : Nat → Nat),
      (∀ t, t ≤ P.length - 1 →
        e ((r + 1 + t) % P.length) = challengeAt H G m P r k rnd t) ∧
      (∀ t, t < P.length - 1 →
        s ((r + 1 + t) % P.length) = rnd ((r + 1 + t) % P.length)) ∧
      Sign H G n m P r x k rnd = some (.ok
        { e := e 0
          s := (List.range P.length).map
            (Function.update s r (((k : Int) - (e r : Int) * (x : Int)) % (n : Int)).toNat) }) := by
  obtain ⟨st', hloop, he, hs⟩ := signLoop_spec H G m P r k rnd (by omega) hr P.length 0
    { e := Function.update (fun _ => 0) ((r + 1) % P.length) (H m (k • G)), s := fun _ => 0 }
    (Nat.zero_le _) (by omega)
    (by
      intro t ht
      obtain rfl : t = 0 := by omega
      dsimp only
      rw [Nat.add_zero, Function.update_same]
      rfl)
    (by intro t ht; omega)
  refine ⟨st'.e, st'.s, he, hs, ?_⟩
  rw [Nat.add_zero] at hloop
  have h1 : ¬ P.length < 2 := by omega
  have h2 : ¬ P.length ≤ r := by omega
  have h3 : ¬ P.getD r 0 ≠ x • G := fun h => h hP
  simp only [Sign, if_neg h1, if_neg h2, if_neg h3, hloop]

/-- Closing the ring: with `P(r) = x·G` and `n·G = 0`, the response
`s(r) = k - e·x mod n` gives back the commitment `k·G`. -/
theorem closing_commitment (G : Pt) (n : Nat) (hn : 0 < n) (hG : n • G = 0) (k e x : Nat) :
    (((k : Int) - (e : Int) * (x : Int)) % (n : Int)).toNat • G + e • (x • G) = k • G := by
  have hn' : (n : Int) ≠ 0 := by omega
  have hz : (((((k : Int) - (e : Int) * (x : Int)) % (n : Int)).toNat : Nat) : Int) =
      ((k : Int) - (e : Int) * (x : Int)) % (n : Int) :=
    Int.toNat_of_nonneg (Int.emod_nonneg _ hn')
  have hnG : (n : Int) • G = 0 := by rw [natCast_zsmul, hG]
  rw [← natCast_zsmul, hz, Int.emod_def, sub_smul, mul_smul, smul_comm (n : Int) _ G, hnG,
    smul_zero, sub_zero, sub_smul, mul_smul, natCast_zsmul, natCast_zsmul, natCast_zsmul]
  abel

theorem closing_scalar (n : Nat) (hn : 0 < n) (k e x : Nat) :
    (((k : Int) - (e : Int) * (x : Int)) % (n : Int)).toNat < n ∧
      ((((k : Int) - (e : Int) * (x : Int)) % (n : Int)).toNat + e * x) % n = k % n := by
  have hn' : (n : Int) ≠ 0 := by omega
  have hz : (((((k : Int) - (e : Int) * (x : Int)) % (n : Int)).toNat : Nat) : Int) =
      ((k : Int) - (e : Int) * (x : Int)) % (n : Int) :=
    Int.toNat_of_nonneg (Int.emod_nonneg _ hn')
  constructor
  · have hlt := Int.emod_lt_of_pos ((k : Int) - (e : Int) * (x : Int))
      (show (0 : Int) < (n : Int) by omega)
    omega
  · apply Int.ofNat_inj.1
    push_cast
    rw [hz, Int.emod_add_emod, sub_add_cancel]

theorem getD_map_range (f : Nat → Nat) (R i : Nat) (hi : i < R) :
    ((List.range R).map f).getD i 0 = f i := by
  rw [List.getD_eq_getElem _ _ (by simpa using hi)]
  simp

/-- The recursion of the verifier follows a table `e` of challenges that is closed
under the step of the recursion. -/
theorem verifyRecursion_follows (H : Msg → Pt → Nat) (G : Pt) (m : Msg) (P : List Pt)
    (e : Nat → Nat) (s : List Nat)
    (hstep : ∀ i, i < P.length →
      e ((i + 1) % P.length) = H m (s.getD i 0 • G + e i • P.getD i 0)) :
    ∀ t, t ≤ P.length →
      (List.range t).foldl (fun ee i => H m (s.getD i 0 • G + ee • P.getD i 0)) (e 0) =
        e (t % P.length) := by
  intro t
  induction t with
  | zero => intro _; simp
  | succ t ih =>
    intro ht
    rw [List.range_succ, List.foldl_append, ih (by omega), List.foldl_cons, List.foldl_nil,
      Nat.mod_eq_of_lt (by omega : t < P.length), ← hstep t (by omega)]

/-- C5: the round trip of the documented algorithms.  In a group with `n·G = 0`,
`n > 0`, for every message, every ring of `R ≥ 2` keys, every signer index `r < R`
with `P(r) = x·G` and every choice of `k` and of the `s(i)`, the signing procedure
ends with a signature `(e(0), s(0..R-1))` whose `s(i)` for `i ≠ r` are the chosen
ones and whose `s(r)` is `k - e(r)·x mod n`, and the verifying procedure accepts it:
its recursion started from `e(0)` ends in `e(0)`. -/
theorem Sign_Verify_round_trip [DecidableEq Pt] (H : Msg → Pt → Nat) (G : Pt) (n : Nat)
    (hn : 0 < n) (hG : n • G = 0) (m : Msg) (P : List Pt) (hR : 2 ≤ P.length) (r : Nat)
    (hr : r < P.length) (x : Nat) (hP : P.getD r 0 = x • G) (k : Nat) (rnd : Nat → Nat) :
    ∃ sig, Sign H G n m P r x k rnd = some (.ok sig) ∧ sig.s.length = P.length ∧
      (∀ i, i < P.length → i ≠ r → sig.s.getD i 0 = rnd i) ∧
      sig.s.getD r 0 < n ∧
      (sig.s.getD r 0 + challengeAt H G m P r k rnd (P.length - 1) * x) % n = k % n ∧
      verifyRecursion H G m P sig.e sig.s = sig.e ∧ Verify H G m P sig = true := by
  have hR0 : 0 < P.length := by omega
  obtain ⟨e, s, he, hs, hsign⟩ := Sign_spec H G n m P r x k rnd hR hr hP
  have her : e r = challengeAt H G m P r k rnd (P.length - 1) := by
    rw [← he (P.length - 1) (le_refl _), walk_index_last _ _ hR0 hr]
  have hothers : ∀ i, i < P.length → i ≠ r →
      ((List.range P.length).map (Function.update s r
        (((k : Int) - (e r : Int) * (x : Int)) % (n : Int)).toNat)).getD i 0 = rnd i := by
    intro i hi hne
    obtain ⟨j, hj, rfl⟩ := walk_index_surj _ _ i hr hi
    have hjl : j < P.length - 1 := by
      rcases Nat.lt_or_ge j (P.length - 1) with h | h
      · exact h
      · have : j = P.length - 1 := by omega
        rw [this, walk_index_last _ _ hR0 hr] at hne
        exact absurd rfl hne
    rw [getD_map_range _ _ _ hi, Function.update_noteq hne, hs j hjl]
  have hstep : ∀ i, i < P.length → e ((i + 1) % P.length) =
      H m (((List.range P.length).map (Function.update s r
        (((k : Int) - (e r : Int) * (x : Int)) % (n : Int)).toNat)).getD i 0 • G +
        e i • P.getD i 0) := by
    intro i hi
    by_cases hir : i = r
    · subst hir
      rw [getD_map_range _ _ _ hi, Function.update_same, hP, closing_commitment G n hn hG]
      have h0 := he 0 (Nat.zero_le _)
      rw [Nat.add_zero] at h0
      rw [h0]; rfl
    · rw [hothers i hi hir]
      obtain ⟨j, hj, rfl⟩ := walk_index_surj _ _ i hr hi
      have hjl : j < P.length - 1 := by
        rcases Nat.lt_or_ge j (P.length - 1) with h | h
        · exact h
        · have : j = P.length - 1 := by omega
          rw [this, walk_index_last _ _ hR0 hr] at hir
          exact absurd rfl hir
      rw [walk_index_succ, he (j + 1) (by omega), he j (by omega)]
      rfl
  have hrec := verifyRecursion_follows H G m P e _ hstep P.length (le_refl _)
  rw [Nat.mod_self] at hrec
  have hsr := closing_scalar n hn k (e r) x
  refine ⟨_, hsign, by simp, hothers, ?_, ?_, hrec, ?_⟩
  · dsimp only
    rw [getD_map_range _ _ _ hr, Function.update_same]
    exact hsr.1
  · dsimp only
    rw [getD_map_range _ _ _ hr, Function.update_same, ← her]
    exact hsr.2
  · have hrec' : verifyRecursion H G m P (e 0) ((List.range P.length).map (Function.update s r
        (((k : Int) - (e r : Int) * (x : Int)) % (n : Int)).toNat)) = e 0 := hrec
    simp [Verify, hrec']

/-- The signing procedure raises its precondition errors: a ring of fewer than two
keys, then a signer index outside the ring, then a key that is not that of `P(r)`. -/
theorem Sign_rejects [DecidableEq Pt] (H : Msg → Pt → Nat) (G : Pt) (n : Nat) (m : Msg)
    (P : List Pt) (r x k : Nat) (rnd : Nat → Nat) :
    (P.length < 2 → Sign H G n m P r x k rnd = some (.error SignError.ringTooSmall)) ∧
    (2 ≤ P.length → P.length ≤ r →
      Sign H G n m P r x k rnd = some (.error SignError.indexOutOfRange)) ∧
    (2 ≤ P.length → r < P.length → P.getD r 0 ≠ x • G →
      Sign H G n m P r x k rnd = some (.error SignError.keyMismatch)) := by
  refine ⟨fun h => ?_, fun h₁ h₂ => ?_, fun h₁ h₂ h₃ => ?_⟩
  · simp only [Sign, if_pos h]
  · have h1 : ¬ P.length < 2 := by omega
    simp only [Sign, if_neg h1, if_pos h₂]
  · have h1 : ¬ P.length < 2 := by omega
    have h2 : ¬ P.length ≤ r := by omega
    simp only [Sign, if_neg h1, if_neg h2, if_pos h₃]

/-- C5 at the sample ring of three keys in `ZMod 11`, signer 1 with private key 7,
`k = 5` and `s(i) = i + 2`: the signature is `(7, [2, 6, 4])` and it verifies. -/
theorem Sign_Verify_round_trip_witness :
    Sign sampleH (1 : ZMod 11) 11 [104, 105] sampleRing 1 7 5 (fun i => i + 2) =
        some (.ok { e := 7, s := [2, 6, 4] }) ∧
      Verify sampleH (1 : ZMod 11) [104, 105] sampleRing { e := 7, s := [2, 6, 4] } = true ∧
      ∃ sig, Sign sampleH (1 : ZMod 11) 11 [104, 105] sampleRing 1 7 5 (fun i => i + 2) =
          some (.ok sig) ∧ sig.s.length = sampleRing.length ∧
        (∀ i, i < sampleRing.length → i ≠ 1 → sig.s.getD i 0 = i + 2) ∧
        sig.s.getD 1 0 < 11 ∧
        (sig.s.getD 1 0 + challengeAt sampleH (1 : ZMod 11) [104, 105] sampleRing 1 5
          (fun i => i + 2) (sampleRing.length - 1) * 7) % 11 = 5 % 11 ∧
        verifyRecursion sampleH (1 : ZMod 11) [104, 105] sampleRing sig.e sig.s = sig.e ∧
        Verify sampleH (1 : ZMod 11) [104, 105] sampleRing sig = true :=
  ⟨by decide, by decide,
    Sign_Verify_round_trip sampleH (1 : ZMod 11) 11 (by decide) (by decide) [104, 105]
      sampleRing (by decide) 1 (by decide) 7 (by decide) 5 (fun i => i + 2)⟩

end Schnorr

end Ring
